import Mathlib

/-!
Verification of the PFERD transform core (`PFERD/transform.py`).

The source defines a rule type `Transform = Callable[[PurePath], Optional[PurePath]]`,
rule primitives (`keep`, `predicate`, `glob`, `move`, `move_dir`, `rename`,
`re_move`, `re_rename`), combinators (`attempt`, `optionally`, `do`) and a batch
applicator (`apply_transform`) over `Transformable` items.

The path values are Python `pathlib.PurePath` objects (an external base type);
they are modelled here as lists of path components with POSIX-style parsing.
A Python `PurePath` object is always truthy (it defines neither `__bool__` nor
`__len__`), so the source's `if new_path:` tests are exactly `is not None`
tests; `Optional[PurePath]` is therefore embedded faithfully as `Option PurePath`.
-/

deriving instance DecidableEq for Except

namespace PFERD

/-- Modelled from the spec: the Path Value base type (Python `pathlib.PurePath`,
supplied by the platform, absent from `src/`): an immutable, purely syntactic
sequence of path segments. -/
structure PurePath where
  components : List String
deriving DecidableEq

/-- Split a raw string on the separator character, POSIX style. -/
def splitSlashAux : List Char → List Char → List String
  | [], cur => [String.mk cur.reverse]
  | '/' :: rest, cur => String.mk cur.reverse :: splitSlashAux rest []
  | c :: rest, cur => splitSlashAux rest (c :: cur)

/-- Modelled from the spec: `PurePath` string parsing — split on `/`, dropping
empty segments and `.` segments (pathlib normalization). -/
def parsePath (s : String) : List String :=
  (splitSlashAux s.data []).filter (fun c => c ≠ "" && c ≠ ".")

/-- Modelled from the spec: `str(path)` — the path's string form; the empty
(relative) path renders as `.`. -/
def pathStr (p : PurePath) : String :=
  if p.components = [] then "." else String.intercalate "/" p.components

/-- Modelled from the spec: `utils.to_path` (repository code absent from
`src/`) — coerce a path-like value (here: a string) to a `PurePath`. -/
def to_path (s : String) : PurePath := ⟨parsePath s⟩

/-- Modelled from the spec: `PurePath.parents` — the strict ancestors of a
path, nearest first, ending with the empty (`.`) path. -/
def parentsList (cs : List String) : List (List String) :=
  (List.range cs.length).reverse.map (fun k => cs.take k)

/-- Modelled from the spec: `PurePath.parents` lifted to path values. -/
def PurePath.parents (p : PurePath) : List PurePath :=
  (parentsList p.components).map PurePath.mk

/-- Modelled from the spec: `PurePath.name` — the final path component, or the
empty string for the empty path. -/
def PurePath.nameOf (p : PurePath) : String :=
  (p.components.getLast?).getD ""

/-- `Transform = Callable[[PurePath], Optional[PurePath]]` (transform.py line 15). -/
abbrev Transform := PurePath → Option PurePath

/-- `Transformable` (transform.py lines 17–23): an object with one `path`
attribute; the bound type variable `TF` (subclasses may carry extra payload)
is modelled by the opaque `data` field. -/
structure Transformable (α : Type) where
  path : PurePath
  data : α
deriving DecidableEq

/-- `apply_transform` (transform.py lines 29–47): apply a `Transform` to each
`Transformable` in order, overwrite the `path` of those the transform accepts
and append them to the result, and drop the rest. -/
def apply_transform {α : Type} (transform : Transform) :
    List (Transformable α) → List (Transformable α)
  | [] => []
  | transformable :: rest =>
    match transform transformable.path with
    | some new_path => { transformable with path := new_path } :: apply_transform transform rest
    | none => apply_transform transform rest

/-- The loop body of `apply_transform` on a single item: the item's state after
the iteration, paired with whether it was appended to the result. -/
def applyStep {α : Type} (transform : Transform) (t : Transformable α) :
    Transformable α × Bool :=
  match transform t.path with
  | some new_path => ({ t with path := new_path }, true)
  | none => (t, false)

/-- `keep` (transform.py line 52): the identity transform. A Python `PurePath`
is always truthy, so returning the path means acceptance. -/
def keep : Transform := fun path => some path

/-- `attempt` (transform.py lines 55–65): try each transform in order on the
same input path; return the first non-`None` result, else `None`. -/
def attempt : List Transform → Transform
  | [] => fun _ => none
  | transform :: rest => fun path =>
    match transform path with
    | some result => some result
    | none => attempt rest path

/-- `optionally` (transform.py lines 68–69): `attempt(transform, lambda path: path)`. -/
def optionally (transform : Transform) : Transform :=
  attempt [transform, fun path => some path]

/-- The loop of `do` (transform.py lines 73–84): thread the current result
through the transforms, aborting with `None` on the first rejection. -/
def doAux : List Transform → PurePath → Option PurePath
  | [], current_result => some current_result
  | transform :: rest, current_result =>
    match transform current_result with
    | some result => doAux rest result
    | none => none

/-- `do` (transform.py lines 72–86): pipeline the transforms in order. -/
def «do» (args : List Transform) : Transform := fun path => doAux args path

/-- `predicate` (transform.py lines 89–96): accept the path unchanged iff the
test holds. -/
def predicate (pred : PurePath → Bool) : Transform := fun path =>
  if pred path then some path else none

/-- `move_dir` (transform.py lines 103–113): if `source_path` is among the
input path's `parents`, return `target_path / path.relative_to(source_path)`,
else reject. -/
def move_dir (source_dir target_dir : String) : Transform := fun path =>
  let source_path := to_path source_dir
  let target_path := to_path target_dir
  if source_path ∈ path.parents then
    some ⟨target_path.components ++ path.components.drop source_path.components.length⟩
  else
    none

/-- `move` (transform.py lines 116–126): exact-path replacement. -/
def move (source target : String) : Transform := fun path =>
  if path = to_path source then some (to_path target) else none

/-- Modelled from the spec: scan the body of an `fnmatch` character class
after the opening bracket (and after a possible `!`), collecting character
ranges until the closing bracket; `none` when the class is unterminated. -/
def parseClsAux : List Char → List (Char × Char) → Option (List (Char × Char) × List Char)
  | [], _ => none
  | ']' :: r, acc => some (acc.reverse, r)
  | c :: '-' :: ']' :: r, acc => some ((('-', '-') :: (c, c) :: acc).reverse, r)
  | c :: '-' :: d :: r, acc => parseClsAux r ((c, d) :: acc)
  | c :: r, acc => parseClsAux r ((c, c) :: acc)

/-- Modelled from the spec: parse an `fnmatch` character class body, handling
the `!` negation marker and a literal leading `]`. -/
def parseCls (cs : List Char) : Option (List (Char × Char) × Bool × List Char) :=
  match cs with
  | '!' :: ']' :: rest => (parseClsAux rest [(']', ']')]).map (fun r => (r.1, true, r.2))
  | '!' :: rest => (parseClsAux rest []).map (fun r => (r.1, true, r.2))
  | ']' :: rest => (parseClsAux rest [(']', ']')]).map (fun r => (r.1, false, r.2))
  | rest => (parseClsAux rest []).map (fun r => (r.1, false, r.2))

/-- Does a character fall in one of the ranges, modulo negation? -/
def clsMatch (items : List (Char × Char)) (neg : Bool) (c : Char) : Bool :=
  (items.any (fun i => decide (i.1 ≤ c) && decide (c ≤ i.2))) != neg

/-- Modelled from the spec: the `fnmatch` wildcard matcher used per path
component by `PurePath.match` — `*` matches any run of characters within the
component, `?` any single character, `[...]` a character class; fuelled, the
fuel strictly decreasing on every call, so `fnMatch` below always supplies
enough. -/
def fnMatchAux : Nat → List Char → List Char → Bool
  | 0, _, _ => false
  | f + 1, pat, s =>
    match pat, s with
    | [], [] => true
    | [], _ :: _ => false
    | '*' :: ps, s =>
      fnMatchAux f ps s ||
        (match s with
         | [] => false
         | _ :: ss => fnMatchAux f ('*' :: ps) ss)
    | '?' :: ps, _ :: ss => fnMatchAux f ps ss
    | '?' :: _, [] => false
    | '[' :: ps, s =>
      (match parseCls ps with
       | some r =>
         (match s with
          | c :: ss => clsMatch r.1 r.2.1 c && fnMatchAux f r.2.2 ss
          | [] => false)
       | none =>
         (match s with
          | c :: ss => (c == '[') && fnMatchAux f ps ss
          | [] => false))
    | c :: ps, c' :: ss => (c == c') && fnMatchAux f ps ss
    | _ :: _, [] => false

/-- Modelled from the spec: `fnmatch` on whole strings. -/
def fnMatch (pat s : String) : Bool :=
  fnMatchAux (pat.data.length + s.data.length + 1) pat.data s.data

/-- Modelled from the spec: `PurePath.match(pattern)` — parse the pattern into
components; an empty pattern is a `ValueError`; a relative pattern matches iff
it has no more components than the path and each pattern component `fnmatch`es
the corresponding path component, aligned from the right. -/
def pathMatch (p : PurePath) (pattern : String) : Except String Bool :=
  let patParts := parsePath pattern
  if patParts.isEmpty then .error "ValueError: empty pattern"
  else if p.components.length < patParts.length then .ok false
  else .ok ((patParts.reverse.zip p.components.reverse).all (fun pr => fnMatch pr.1 pr.2))

/-- `glob` (transform.py lines 99–100): `predicate(lambda path: path.match(pattern))`,
with the `ValueError` of `PurePath.match` propagated. -/
def glob (pattern : String) (path : PurePath) : Except String (Option PurePath) :=
  (pathMatch path pattern).map (fun b => if b then some path else none)

/-- Follows the spec's words, for comparison with `glob`: a standard
shell-glob match of the pattern against the path's entire string form, where
`**` matches any run of characters including the separator, `*` and `?` and
character classes never match the separator; fuelled like `fnMatchAux`. -/
def globSpecAux : Nat → List Char → List Char → Bool
  | 0, _, _ => false
  | f + 1, pat, s =>
    match pat, s with
    | [], [] => true
    | [], _ :: _ => false
    | '*' :: '*' :: ps, s =>
      globSpecAux f ps s ||
        (match s with
         | [] => false
         | _ :: ss => globSpecAux f ('*' :: '*' :: ps) ss)
    | '*' :: ps, s =>
      globSpecAux f ps s ||
        (match s with
         | [] => false
         | c :: ss => if c = '/' then false else globSpecAux f ('*' :: ps) ss)
    | '?' :: ps, c :: ss => (c != '/') && globSpecAux f ps ss
    | '?' :: _, [] => false
    | '[' :: ps, s =>
      (match parseCls ps with
       | some r =>
         (match s with
          | c :: ss => (c != '/') && clsMatch r.1 r.2.1 c && globSpecAux f r.2.2 ss
          | [] => false)
       | none =>
         (match s with
          | c :: ss => (c == '[') && globSpecAux f ps ss
          | [] => false))
    | c :: ps, c' :: ss => (c == c') && globSpecAux f ps ss
    | _ :: _, [] => false

/-- Follows the spec's words: standard shell-glob match against a whole
string (the claimed behaviour of `glob`, to be compared with `glob` itself). -/
def globSpecMatch (pattern s : String) : Bool :=
  globSpecAux (pattern.data.length + s.data.length + 1) pattern.data s.data

/-- Modelled from the spec: `PurePath.with_name` — replace the final
component; raises `ValueError` on an empty path or an invalid name. -/
def with_name (p : PurePath) (n : String) : Except String PurePath :=
  if p.components = [] then .error "ValueError: path has an empty name"
  else if n = "" || n = "." || n.contains '/' then .error "ValueError: invalid name"
  else .ok ⟨p.components.dropLast ++ [n]⟩

/-- `rename` (transform.py lines 129–136): if the final component equals
`source`, replace it by `target` via `with_name` (whose `ValueError` for an
invalid `target` propagates), else reject. -/
def rename (source target : String) (path : PurePath) : Except String (Option PurePath) :=
  if path.nameOf = source then (with_name path target).map some else .ok none

/-- Modelled from the spec: abstract syntax of the regular expressions used by
the full-string matcher — literals, `.`, `\d`, concatenation, alternation,
`*` repetition, and numbered capture groups. -/
inductive RegexAst where
  | eps
  | chr (c : Char)
  | anyc
  | digit
  | cat (a b : RegexAst)
  | alt (a b : RegexAst)
  | star (a : RegexAst)
  | group (n : Nat) (a : RegexAst)
deriving DecidableEq

/-- Structural size of a regex, used to budget matcher fuel. -/
def reSize : RegexAst → Nat
  | .eps => 1
  | .chr _ => 1
  | .anyc => 1
  | .digit => 1
  | .cat a b => reSize a + reSize b + 1
  | .alt a b => reSize a + reSize b + 1
  | .star a => reSize a + 1
  | .group _ a => reSize a + 1

/-- Number of capture groups declared in a regex. -/
def countGroups : RegexAst → Nat
  | .eps => 0
  | .chr _ => 0
  | .anyc => 0
  | .digit => 0
  | .cat a b => countGroups a + countGroups b
  | .alt a b => countGroups a + countGroups b
  | .star a => countGroups a
  | .group _ a => countGroups a + 1

/-- Precedence level of the recursive-descent pattern reader. -/
inductive PLevel where
  | alt
  | cat
  | rep
  | atom

/-- Modelled from the spec: read a pattern string into a `RegexAst` —
alternation at the lowest precedence, then concatenation, then `*`/`+`
repetition, then atoms (literal, `.`, `\d`, escaped punctuation, and `(...)`
capture groups numbered by order of their opening parenthesis). The `Nat`
state is the last group number used; `none` signals a malformed pattern.
Fuelled; the fuel strictly decreases on every call and `to_pattern` supplies
enough for any input. -/
def parseRe : Nat → PLevel → List Char → Nat → Option (RegexAst × List Char × Nat)
  | 0, _, _, _ => none
  | f + 1, .alt, cs, gn =>
    (parseRe f .cat cs gn).bind (fun r =>
      match r.2.1 with
      | '|' :: rest =>
        (parseRe f .alt rest r.2.2).map (fun r2 => (.alt r.1 r2.1, r2.2.1, r2.2.2))
      | _ => some r)
  | f + 1, .cat, cs, gn =>
    match cs with
    | [] => some (.eps, cs, gn)
    | ')' :: _ => some (.eps, cs, gn)
    | '|' :: _ => some (.eps, cs, gn)
    | _ =>
      (parseRe f .rep cs gn).bind (fun r =>
        (parseRe f .cat r.2.1 r.2.2).map (fun r2 => (.cat r.1 r2.1, r2.2.1, r2.2.2)))
  | f + 1, .rep, cs, gn =>
    (parseRe f .atom cs gn).map (fun r =>
      match r.2.1 with
      | '*' :: rest => (.star r.1, rest, r.2.2)
      | '+' :: rest => (.cat r.1 (.star r.1), rest, r.2.2)
      | _ => r)
  | f + 1, .atom, cs, gn =>
    match cs with
    | [] => none
    | '(' :: rest =>
      (parseRe f .alt rest (gn + 1)).bind (fun r =>
        match r.2.1 with
        | ')' :: rest' => some (.group (gn + 1) r.1, rest', r.2.2)
        | _ => none)
    | ')' :: _ => none
    | '|' :: _ => none
    | '*' :: _ => none
    | '+' :: _ => none
    | '.' :: rest => some (.anyc, rest, gn)
    | '\\' :: c :: rest =>
      if c = 'd' then some (.digit, rest, gn)
      else if c.isAlphanum then none
      else some (.chr c, rest, gn)
    | ['\\'] => none
    | c :: rest => some (.chr c, rest, gn)

/-- Modelled from the spec: `utils.to_pattern` (repository code absent from
`src/`) composed with the platform's pattern compiler (`re.compile`) — compile
a pattern string, reporting malformed patterns as an error value (the
embedding of the raised `re.error`). -/
def to_pattern (regex : String) : Except String RegexAst :=
  match parseRe (4 * regex.data.length + 8) .alt regex.data 0 with
  | some (ast, [], _) => .ok ast
  | some (_, _ :: _, _) => .error "re.error: unbalanced parenthesis"
  | none => .error "re.error: invalid pattern"

/-- A capture-group assignment: bindings in match order, later wins. -/
abbrev Asg := List (Nat × String)

/-- Concatenate the lists produced for each element (kept first-order so that
membership reasoning stays elementary). -/
def listBind {α β : Type} : List α → (α → List β) → List β
  | [], _ => []
  | x :: xs, f => f x ++ listBind xs f

/-- Modelled from the spec: the backtracking regex matcher (the platform's
`re` engine). `mrun fuel a s` lists the candidate outcomes of matching `a`
against a prefix of `s`, each as (remaining suffix, group bindings), in
backtracking priority order (greedy `*`, left alternative first); `*`
iterations must consume at least one character. The fuel decreases on every
recursive call; `fullmatch` supplies enough for any input. -/
def mrun : Nat → RegexAst → List Char → List (List Char × Asg)
  | 0, _, _ => []
  | f + 1, ast, s =>
    match ast with
    | .eps => [(s, [])]
    | .chr c =>
      match s with
      | [] => []
      | c' :: r => if c' = c then [(r, [])] else []
    | .anyc =>
      match s with
      | [] => []
      | _ :: r => [(r, [])]
    | .digit =>
      match s with
      | [] => []
      | c :: r => if c.isDigit then [(r, [])] else []
    | .alt a b => mrun f a s ++ mrun f b s
    | .cat a b =>
      listBind (mrun f a s) (fun c =>
        (mrun f b c.1).map (fun d => (d.1, c.2 ++ d.2)))
    | .group n a =>
      (mrun f a s).map (fun c =>
        (c.1, c.2 ++ [(n, String.mk (s.take (s.length - c.1.length)))]))
    | .star a =>
      listBind ((mrun f a s).filter (fun c => c.1.length < s.length)) (fun c =>
        (mrun f (.star a) c.1).map (fun d => (d.1, c.2 ++ d.2)))
        ++ [(s, [])]

/-- Modelled from the spec: `Pattern.fullmatch` — the first backtracking
candidate that consumes the entire string, as its group assignment. -/
def fullmatch (a : RegexAst) (s : String) : Option Asg :=
  ((mrun ((s.data.length + 1) * (reSize a + 1)) a s.data).find?
    (fun c => c.1.isEmpty)).map (fun c => c.2)

/-- The value of one capture group under an assignment: the last binding, as
Python keeps the final iteration's capture; `none` is an unmatched group. -/
def lookupLast (n : Nat) (asg : Asg) : Option String :=
  ((asg.filter (fun b => b.1 = n)).getLast?).map (fun b => b.2)

/-- Modelled from the spec: `match.groups()` — the values of groups `1..k` in
declaration order. -/
def groupVals (ast : RegexAst) (asg : Asg) : List (Option String) :=
  (List.range (countGroups ast)).map (fun i => lookupLast (i + 1) asg)

/-- One parsed piece of a format template: literal text or a positional
placeholder. -/
inductive TItem where
  | lit (s : List Char)
  | ph (k : Nat)
deriving DecidableEq

/-- Modelled from the spec: read the digits of a positional placeholder up to
the closing brace; errors are the embedding of `str.format`'s `ValueError`s. -/
def readPh : List Char → Nat → Bool → Except String (Nat × List Char)
  | [], _, _ => .error "ValueError: expected closing brace"
  | '\x7d' :: rest, acc, seen =>
    if seen then .ok (acc, rest) else .error "ValueError: empty field"
  | c :: rest, acc, _ =>
    if c.isDigit then readPh rest (acc * 10 + (c.toNat - 48)) true
    else .error "ValueError: only positional fields supported"

/-- Modelled from the spec: parse a `str.format` template into literal runs
and positional placeholders, with doubled braces as escapes. Fuelled; the
fuel strictly decreases on every call and `formatTemplate` supplies enough. -/
def parseTemplate : Nat → List Char → Except String (List TItem)
  | 0, _ => .error "ValueError: template too deep"
  | _ + 1, [] => .ok []
  | f + 1, '\x7b' :: rest =>
    match rest with
    | '\x7b' :: rest' => (parseTemplate f rest').map (fun l => TItem.lit ['\x7b'] :: l)
    | _ =>
      (readPh rest 0 false).bind (fun kr =>
        (parseTemplate f kr.2).map (fun l => TItem.ph kr.1 :: l))
  | f + 1, '\x7d' :: rest =>
    match rest with
    | '\x7d' :: rest' => (parseTemplate f rest').map (fun l => TItem.lit ['\x7d'] :: l)
    | _ => .error "ValueError: single closing brace in format string"
  | f + 1, c :: rest => (parseTemplate f rest).map (fun l => TItem.lit [c] :: l)

/-- Modelled from the spec: how a group value prints — Python renders an
unmatched (`None`) group as the text `None`. -/
def renderGroup : Option String → String
  | some s => s
  | none => "None"

/-- Modelled from the spec: substitute group values for placeholders; an index
at or beyond the number of arguments is the embedding of the raised
`IndexError`. -/
def substItems (gs : List (Option String)) : List TItem → Except String (List Char)
  | [] => .ok []
  | TItem.lit l :: rest => (substItems gs rest).map (fun out => l ++ out)
  | TItem.ph k :: rest =>
    if h : k < gs.length then
      (substItems gs rest).map (fun out => (renderGroup (gs.get ⟨k, h⟩)).data ++ out)
    else .error "IndexError: Replacement index out of range"

/-- Modelled from the spec: `target.format(*groups)` — positional substitution
of the group list into the template. -/
def formatTemplate (gs : List (Option String)) (t : String) : Except String String :=
  (parseTemplate (t.data.length + 1) t.data).bind (fun items =>
    (substItems gs items).map String.mk)

/-- Is every placeholder of the template in range for `n` arguments (and the
template itself well formed)? -/
def wellFormedTemplate (t : String) (n : Nat) : Bool :=
  match parseTemplate (t.data.length + 1) t.data with
  | .ok items =>
    items.all (fun it =>
      match it with
      | TItem.ph k => decide (k < n)
      | TItem.lit _ => true)
  | .error _ => false

/-- The body of `re_move`'s closure after pattern compilation: take a full
match of the string `s`, build the group list `[match.group(0)] + match.groups()`,
format the template with it and parse the result as a new path; a
non-matching string is rejected with `None`. -/
def re_move_core (ast : RegexAst) (target : String) (s : String) :
    Except String (Option PurePath) :=
  match fullmatch ast s with
  | none => .ok none
  | some asg =>
    match formatTemplate (some s :: groupVals ast asg) target with
    | .error e => .error e
    | .ok out => .ok (some (to_path out))

/-- `re_move` (transform.py lines 139–151): compile the pattern inside the
applied closure (so a malformed pattern surfaces on application), then match
the path's entire string form as in `re_move_core`. -/
def re_move (regex target : String) (path : PurePath) : Except String (Option PurePath) :=
  match to_pattern regex with
  | .error e => .error e
  | .ok ast => re_move_core ast target (pathStr path)

/-- The body of `re_rename`'s closure after pattern compilation: like
`re_move_core` but matching the final component only, the formatted template
replacing the final component via `with_name` (whose `ValueError` propagates). -/
def re_rename_core (ast : RegexAst) (target : String) (path : PurePath) :
    Except String (Option PurePath) :=
  match fullmatch ast path.nameOf with
  | none => .ok none
  | some asg =>
    match formatTemplate (some path.nameOf :: groupVals ast asg) target with
    | .error e => .error e
    | .ok out => (with_name path out).map some

/-- `re_rename` (transform.py lines 154–165): compile the pattern inside the
applied closure, then rename via `re_rename_core`. -/
def re_rename (regex target : String) (path : PurePath) : Except String (Option PurePath) :=
  match to_pattern regex with
  | .error e => .error e
  | .ok ast => re_rename_core ast target path

/-- The whole-string matching relation of the modelled regexes: `RMatches a s`
holds iff `a` generates exactly `s`. Used to state that acceptance by
`fullmatch`-based rules is anchored at both ends. -/
inductive RMatches : RegexAst → List Char → Prop where
  | eps : RMatches .eps []
  | chr (c : Char) : RMatches (.chr c) [c]
  | anyc (c : Char) : RMatches .anyc [c]
  | digit (c : Char) : c.isDigit = true → RMatches .digit [c]
  | cat {a b : RegexAst} {xs ys : List Char} :
      RMatches a xs → RMatches b ys → RMatches (.cat a b) (xs ++ ys)
  | altL {a b : RegexAst} {xs : List Char} : RMatches a xs → RMatches (.alt a b) xs
  | altR {a b : RegexAst} {xs : List Char} : RMatches b xs → RMatches (.alt a b) xs
  | starNil {a : RegexAst} : RMatches (.star a) []
  | starCons {a : RegexAst} {xs ys : List Char} :
      RMatches a xs → RMatches (.star a) ys → RMatches (.star a) (xs ++ ys)
  | group {n : Nat} {a : RegexAst} {xs : List Char} :
      RMatches a xs → RMatches (.group n a) xs

theorem attempt_append_none (rs₁ rs₂ : List Transform) (p : PurePath)
    (h : ∀ r ∈ rs₁, r p = none) : attempt (rs₁ ++ rs₂) p = attempt rs₂ p := by
  induction rs₁ with
  | nil => rfl
  | cons r rs ih =>
    have hr : r p = none := h r (by simp)
    simp only [List.cons_append, attempt, hr]
    exact ih (fun r' hr' => h r' (by simp [hr']))

/-- C1: `apply_transform` returns, for each input item in original order, the
item with its path replaced by the rule's output when the rule accepts, and
nothing when it rejects; survivors keep their input order (they form a
sublist of the per-item loop results). The applicator is a total function, so
it has no failure mode of its own. -/
theorem apply_transform_spec {α : Type} (transform : Transform) (l : List (Transformable α)) :
    apply_transform transform l =
      l.filterMap (fun t => (transform t.path).map (fun p => { t with path := p })) ∧
    List.Sublist (apply_transform transform l) (l.map (fun t => (applyStep transform t).1)) := by
  constructor
  · induction l with
    | nil => rfl
    | cons t ts ih => cases h : transform t.path <;> simp [apply_transform, h, ih]
  · induction l with
    | nil => simp [apply_transform]
    | cons t ts ih =>
      cases h : transform t.path with
      | none =>
        simp only [apply_transform, h, List.map_cons, applyStep]
        exact ih.cons _
      | some newPath =>
        simp only [apply_transform, h, List.map_cons, applyStep]
        exact ih.cons₂ _

/-- C9: the batch applicator leaves rejected items untouched (the loop body
returns them unchanged and unappended), never modifies any field other than
`path`, and the returned list consists exactly of the post-loop states of the
accepted input items, in order. -/
theorem apply_transform_frame {α : Type} (transform : Transform) (l : List (Transformable α)) :
    (∀ t : Transformable α, transform t.path = none → applyStep transform t = (t, false)) ∧
    (∀ t : Transformable α, ((applyStep transform t).1).data = t.data) ∧
    apply_transform transform l =
      ((l.map (applyStep transform)).filter (fun tb => tb.2)).map (fun tb => tb.1) := by
  refine ⟨?_, ?_, ?_⟩
  · intro t h
    simp [applyStep, h]
  · intro t
    cases h : transform t.path <;> simp [applyStep, h]
  · induction l with
    | nil => rfl
    | cons t ts ih => cases h : transform t.path <;> simp [apply_transform, applyStep, h, ih]

/-- Witness for C9 at a concrete rejected item. -/
theorem apply_transform_frame_witness :
    applyStep (α := Unit) (fun _ => none) ⟨to_path "a", ()⟩ = (⟨to_path "a", ()⟩, false) :=
  (apply_transform_frame (fun _ => none) []).1 ⟨to_path "a", ()⟩ rfl

/-- C2: `attempt` applied to a path rejects iff every rule rejects that path,
and whenever the rules split as `rs₁ ++ r :: rs₂` with every rule of `rs₁`
rejecting the original path and `r` accepting it, the combined rule returns
`r`'s result — independently of the later rules `rs₂`, and with every rule
applied to the same original input path. -/
theorem attempt_spec (rs : List Transform) (p : PurePath) :
    (attempt rs p = none ↔ ∀ r ∈ rs, r p = none) ∧
    (∀ (rs₁ : List Transform) (r : Transform) (rs₂ : List Transform) (q : PurePath),
      rs = rs₁ ++ r :: rs₂ → (∀ r' ∈ rs₁, r' p = none) → r p = some q →
      attempt rs p = some q) := by
  constructor
  · induction rs with
    | nil => simp [attempt]
    | cons r rest ih => cases h : r p <;> simp [attempt, h, ih]
  · intro rs₁ r rs₂ q hrs h₁ hr
    rw [hrs, attempt_append_none rs₁ (r :: rs₂) p h₁]
    simp [attempt, hr]

/-- Witness for C2: with a rejecting rule ahead of an accepting one, the
combination returns the second rule's result. -/
theorem attempt_spec_witness :
    attempt [fun _ => none, fun _ => some (to_path "b")] (to_path "a") = some (to_path "b") :=
  (attempt_spec [fun _ => none, fun _ => some (to_path "b")] (to_path "a")).2
    [fun _ => none] (fun _ => some (to_path "b")) [] (to_path "b") rfl
    (by intro r' hr'; simp at hr'; simp [hr']) rfl

/-- C7: the single-element pipeline `do(r)` behaves exactly like `r` on every
path. -/
theorem do_singleton (r : Transform) (p : PurePath) : «do» [r] p = r p := by
  cases h : r p <;> simp [«do», doAux, h]

/-- C8: `optionally(r)` never rejects — it returns `r`'s result when `r`
accepts and the original path when `r` rejects — and agrees with
`attempt(r, keep)` on every path. -/
theorem optionally_spec (r : Transform) (p : PurePath) :
    optionally r p ≠ none ∧
    optionally r p = (match r p with | some q => some q | none => some p) ∧
    optionally r p = attempt [r, keep] p := by
  cases h : r p <;> simp [optionally, attempt, keep, h]

/-- C10: the empty pipeline accepts every path unchanged, and the empty
alternation rejects every path. -/
theorem do_attempt_units (p : PurePath) : «do» [] p = some p ∧ attempt [] p = none :=
  ⟨rfl, rfl⟩

theorem mem_parentsList_iff (xs cs : List String) :
    xs ∈ parentsList cs ↔ (xs <+: cs ∧ xs ≠ cs) := by
  unfold parentsList
  simp only [List.mem_map, List.mem_reverse, List.mem_range]
  constructor
  · rintro ⟨k, hk, rfl⟩
    refine ⟨List.take_prefix k cs, ?_⟩
    intro h
    have hlen := congrArg List.length h
    simp only [List.length_take] at hlen
    omega
  · rintro ⟨hpre, hne⟩
    refine ⟨xs.length, ?_, (List.prefix_iff_eq_take.mp hpre).symm⟩
    have hle := hpre.length_le
    rcases Nat.lt_or_ge xs.length cs.length with h | h
    · exact h
    · exact absurd (hpre.eq_of_length (Nat.le_antisymm hle h)) hne

theorem mem_parents_iff (s p : PurePath) :
    s ∈ p.parents ↔ (s.components <+: p.components ∧ s ≠ p) := by
  unfold PurePath.parents
  rw [List.mem_map]
  constructor
  · rintro ⟨a, ha, rfl⟩
    rw [mem_parentsList_iff] at ha
    exact ⟨ha.1, fun h => ha.2 (congrArg PurePath.components h)⟩
  · rintro ⟨hpre, hne⟩
    refine ⟨s.components, (mem_parentsList_iff _ _).mpr ⟨hpre, ?_⟩, rfl⟩
    intro h
    exact hne (by cases s; cases p; simpa using h)

/-- C3: `move_dir(source, target)` accepts a path iff the source is a strict
ancestor of it (a proper component-sequence ancestor, not merely a name
occurring elsewhere in the path), in which case it returns the target joined
with the path's components below the source; the spec's three concrete
examples hold. -/
theorem move_dir_spec (src tgt : String) (p q : PurePath) :
    (move_dir src tgt p = some q ↔
      ((to_path src).components <+: p.components ∧ to_path src ≠ p ∧
        q = ⟨(to_path tgt).components ++ p.components.drop (to_path src).components.length⟩)) ∧
    move_dir "raw" "sorted" (to_path "raw/2023/a.txt") = some (to_path "sorted/2023/a.txt") ∧
    move_dir "raw" "sorted" (to_path "raw") = none ∧
    move_dir "raw" "sorted" (to_path "other/raw/a.txt") = none := by
  refine ⟨?_, by decide, by decide, by decide⟩
  by_cases hm : to_path src ∈ p.parents
  · have hp := (mem_parents_iff _ _).mp hm
    simp only [move_dir, if_pos hm, Option.some.injEq]
    constructor
    · intro h
      exact ⟨hp.1, hp.2, h.symm⟩
    · intro h
      exact h.2.2.symm
  · simp only [move_dir, if_neg hm]
    rw [mem_parents_iff] at hm
    constructor
    · intro h
      exact absurd h (by simp)
    · rintro ⟨h1, h2, _⟩
      exact absurd ⟨h1, h2⟩ hm

theorem zip_left_eq {α β : Type} (l : List α) (l' l'' : List β) (h : l.length = l'.length) :
    l.zip (l' ++ l'') = l.zip l' := by
  induction l generalizing l' with
  | nil => simp
  | cons x xs ih =>
    cases l' with
    | nil => simp at h
    | cons y ys =>
      simp only [List.length_cons] at h
      simp only [List.cons_append, List.zip_cons_cons]
      rw [ih ys (by omega)]

theorem zip_reverse_eq {α β : Type} (l : List α) (l' : List β) (h : l.length = l'.length) :
    l.reverse.zip l'.reverse = (l.zip l').reverse := by
  induction l generalizing l' with
  | nil =>
    cases l' with
    | nil => rfl
    | cons y ys => simp at h
  | cons x xs ih =>
    cases l' with
    | nil => simp at h
    | cons y ys =>
      simp only [List.length_cons] at h
      simp only [List.reverse_cons, List.zip_cons_cons]
      rw [List.zip_append (by simp; omega), ih ys (by omega)]
      simp

theorem zip_rev_all_iff (f : String → String → Bool) (pats comps : List String)
    (h : pats.length ≤ comps.length) :
    ((pats.reverse.zip comps.reverse).all (fun pr => f pr.1 pr.2) = true) ↔
      ∃ pre suf, comps = pre ++ suf ∧ suf.length = pats.length ∧
        List.Forall₂ (fun a b => f a b = true) pats suf := by
  have hsplit : comps = comps.take (comps.length - pats.length) ++
      comps.drop (comps.length - pats.length) :=
    (List.take_append_drop _ comps).symm
  have hlen : (comps.drop (comps.length - pats.length)).length = pats.length := by
    simp only [List.length_drop]
    omega
  have hrev : comps.reverse = (comps.drop (comps.length - pats.length)).reverse ++
      (comps.take (comps.length - pats.length)).reverse := by
    conv_lhs => rw [hsplit]
    rw [List.reverse_append]
  have hkey : (pats.reverse.zip comps.reverse).all (fun pr => f pr.1 pr.2) =
      ((pats.zip (comps.drop (comps.length - pats.length))).reverse).all
        (fun pr => f pr.1 pr.2) := by
    rw [hrev, zip_left_eq _ _ _ (by simp [hlen]),
      zip_reverse_eq _ _ (by omega)]
  constructor
  · intro hall
    refine ⟨_, _, hsplit, hlen, ?_⟩
    rw [hkey, List.all_reverse, List.all_eq_true] at hall
    rw [List.forall₂_iff_zip]
    refine ⟨hlen.symm, ?_⟩
    intro a b hab
    exact hall (a, b) hab
  · rintro ⟨pre, suf, hcomps, hslen, hfa⟩
    have hpre_len : pre.length = comps.length - pats.length := by
      have := congrArg List.length hcomps
      simp only [List.length_append] at this
      omega
    have hsuf : comps.drop (comps.length - pats.length) = suf := by
      have h1 : comps.length - pats.length = pre.length := hpre_len.symm
      rw [h1, hcomps, List.drop_left]
    rw [hkey, List.all_reverse, List.all_eq_true]
    rw [List.forall₂_iff_zip] at hfa
    intro pr hpr
    refine hfa.2 ?_
    rw [← hsuf]
    simpa using hpr

/-- Counterexample to C6: `glob` does not evaluate a standard shell-glob
pattern against the path's whole string form. The wildcard-free pattern `b`
accepts the path `a/b` (whose string form `a/b` is not glob-matched by `b`),
because `PurePath.match` compares components from the right; and the pattern
`docs/**` rejects `docs/a/b` although standard glob semantics (with
recursive `**`) match it. -/
theorem glob_counterexample :
    glob "b" (to_path "a/b") = .ok (some (to_path "a/b")) ∧
    globSpecMatch "b" (pathStr (to_path "a/b")) = false ∧
    glob "docs/**" (to_path "docs/a/b") = .ok none ∧
    globSpecMatch "docs/**" (pathStr (to_path "docs/a/b")) = true ∧
    pathStr (to_path "a/b") = "a/b" ∧
    pathStr (to_path "docs/a/b") = "docs/a/b" := by
  refine ⟨by decide, by decide, by decide, by decide, rfl, rfl⟩

/-- C6 as amended: `glob(pattern)` accepts exactly when the pattern's
(nonempty) component sequence matches a suffix of the path's component
sequence, each pattern component matched against the corresponding path
component by `fnmatch` (so `*`, `?` and character classes apply within a
single component, and `**` is not special); on acceptance the path is
returned unchanged, and an empty pattern is an error. -/
theorem glob_amended (pattern : String) (p q : PurePath) :
    glob pattern p = .ok (some q) ↔
      (q = p ∧ parsePath pattern ≠ [] ∧
        ∃ pre suf, p.components = pre ++ suf ∧ suf.length = (parsePath pattern).length ∧
          List.Forall₂ (fun pat comp => fnMatch pat comp = true) (parsePath pattern) suf) := by
  cases hE : (parsePath pattern).isEmpty with
  | true =>
    have hg : glob pattern p = .error "ValueError: empty pattern" := by
      simp [glob, pathMatch, hE, Except.map]
    rw [hg]
    constructor
    · intro h
      simp at h
    · rintro ⟨_, hne, _⟩
      exact absurd (List.isEmpty_iff.mp hE) hne
  | false =>
    have hne : parsePath pattern ≠ [] := by
      intro h
      rw [h] at hE
      simp at hE
    by_cases hlt : p.components.length < (parsePath pattern).length
    · have hg : glob pattern p = .ok none := by
        simp [glob, pathMatch, hE, hlt, Except.map]
      rw [hg]
      constructor
      · intro h
        simp at h
      · rintro ⟨_, _, pre, suf, hcomps, hslen, _⟩
        have := congrArg List.length hcomps
        simp only [List.length_append] at this
        omega
    · have hle : (parsePath pattern).length ≤ p.components.length := by omega
      cases hall : ((parsePath pattern).reverse.zip p.components.reverse).all
          (fun pr => fnMatch pr.1 pr.2) with
      | true =>
        have hg : glob pattern p = .ok (some p) := by
          simp [glob, pathMatch, hE, hlt, hall, Except.map]
        rw [hg]
        obtain ⟨pre, suf, h1, h2, h3⟩ :=
          (zip_rev_all_iff (fun a b => fnMatch a b) _ _ hle).mp hall
        constructor
        · intro h
          have hq : p = q := by simpa using h
          exact ⟨hq.symm, hne, pre, suf, h1, h2, h3⟩
        · rintro ⟨rfl, _⟩
          rfl
      | false =>
        have hg : glob pattern p = .ok none := by
          simp [glob, pathMatch, hE, hlt, hall, Except.map]
        rw [hg]
        constructor
        · intro h
          simp at h
        · rintro ⟨rfl, _, pre, suf, h1, h2, h3⟩
          have hall' := (zip_rev_all_iff (fun a b => fnMatch a b) _ _ hle).mpr ⟨pre, suf, h1, h2, h3⟩
          rw [hall] at hall'
          cases hall'

theorem mem_listBind {α β : Type} (b : β) (l : List α) (f : α → List β) :
    b ∈ listBind l f ↔ ∃ a ∈ l, b ∈ f a := by
  induction l with
  | nil => simp [listBind]
  | cons x xs ih => simp [listBind, List.mem_append, ih]

/-- Soundness of the backtracking matcher: every candidate it lists really is
a match of a prefix of the input, in the sense of the whole-string matching
relation. -/
theorem mrun_sound (fuel : Nat) :
    ∀ (a : RegexAst) (s r : List Char) (g : Asg),
      (r, g) ∈ mrun fuel a s → ∃ t, s = t ++ r ∧ RMatches a t := by
  induction fuel with
  | zero =>
    intro a s r g h
    simp [mrun] at h
  | succ f ih =>
    intro a s r g h
    cases a with
    | eps =>
      simp only [mrun, List.mem_singleton, Prod.mk.injEq] at h
      exact ⟨[], by simp [h.1], RMatches.eps⟩
    | chr c =>
      cases s with
      | nil => simp [mrun] at h
      | cons c' ss =>
        simp only [mrun] at h
        by_cases hc : c' = c
        · rw [if_pos hc] at h
          simp only [List.mem_singleton, Prod.mk.injEq] at h
          exact ⟨[c'], by simp [h.1], hc ▸ RMatches.chr c'⟩
        · rw [if_neg hc] at h
          simp at h
    | anyc =>
      cases s with
      | nil => simp [mrun] at h
      | cons c' ss =>
        simp only [mrun, List.mem_singleton, Prod.mk.injEq] at h
        exact ⟨[c'], by simp [h.1], RMatches.anyc c'⟩
    | digit =>
      cases s with
      | nil => simp [mrun] at h
      | cons c' ss =>
        simp only [mrun] at h
        by_cases hc : c'.isDigit
        · rw [if_pos hc] at h
          simp only [List.mem_singleton, Prod.mk.injEq] at h
          exact ⟨[c'], by simp [h.1], RMatches.digit c' hc⟩
        · rw [if_neg hc] at h
          simp at h
    | alt a b =>
      simp only [mrun, List.mem_append] at h
      cases h with
      | inl h =>
        obtain ⟨t, hts, hm⟩ := ih a s r g h
        exact ⟨t, hts, RMatches.altL hm⟩
      | inr h =>
        obtain ⟨t, hts, hm⟩ := ih b s r g h
        exact ⟨t, hts, RMatches.altR hm⟩
    | cat a b =>
      simp only [mrun, mem_listBind, List.mem_map] at h
      obtain ⟨c₁, hc₁, d₁, hd₁, hrg⟩ := h
      obtain ⟨t₁, hts₁, hm₁⟩ := ih a s c₁.1 c₁.2 (by simpa using hc₁)
      obtain ⟨t₂, hts₂, hm₂⟩ := ih b c₁.1 d₁.1 d₁.2 (by simpa using hd₁)
      refine ⟨t₁ ++ t₂, ?_, RMatches.cat hm₁ hm₂⟩
      have hr : r = d₁.1 := by
        have := congrArg Prod.fst hrg
        simpa using this.symm
      rw [hts₁, hts₂, hr, List.append_assoc]
    | group n a =>
      simp only [mrun, List.mem_map] at h
      obtain ⟨c₁, hc₁, hrg⟩ := h
      have hr : r = c₁.1 := by
        have := congrArg Prod.fst hrg
        simpa using this.symm
      obtain ⟨t, hts, hm⟩ := ih a s c₁.1 c₁.2 (by simpa using hc₁)
      exact ⟨t, hr ▸ hts, RMatches.group hm⟩
    | star a =>
      simp only [mrun, List.mem_append, mem_listBind, List.mem_map, List.mem_filter] at h
      cases h with
      | inl h =>
        obtain ⟨c₁, hc₁, d₁, hd₁, hrg⟩ := h
        obtain ⟨t₁, hts₁, hm₁⟩ := ih a s c₁.1 c₁.2 (by simpa using hc₁.1)
        obtain ⟨t₂, hts₂, hm₂⟩ := ih (.star a) c₁.1 d₁.1 d₁.2 (by simpa using hd₁)
        have hr : r = d₁.1 := by
          have := congrArg Prod.fst hrg
          simpa using this.symm
        refine ⟨t₁ ++ t₂, ?_, RMatches.starCons hm₁ hm₂⟩
        rw [hts₁, hts₂, hr, List.append_assoc]
      | inr h =>
        rw [List.mem_singleton] at h
        simp only [Prod.mk.injEq] at h
        exact ⟨[], by simp [h.1], RMatches.starNil⟩

/-- Soundness of `fullmatch`: success means the regex generates the entire
input string — the match is anchored at both ends. -/
theorem fullmatch_sound {a : RegexAst} {s : String} {g : Asg}
    (h : fullmatch a s = some g) : RMatches a s.data := by
  unfold fullmatch at h
  cases hf : (mrun ((s.data.length + 1) * (reSize a + 1)) a s.data).find?
      (fun c => c.1.isEmpty) with
  | none => rw [hf] at h; simp at h
  | some c =>
    have hm : c ∈ mrun ((s.data.length + 1) * (reSize a + 1)) a s.data :=
      List.mem_of_find?_eq_some hf
    have hp := List.find?_some hf
    have hnil : c.1 = [] := List.isEmpty_iff.mp (by simpa using hp)
    obtain ⟨t, hts, hmt⟩ := mrun_sound _ a s.data c.1 c.2 (by simpa using hm)
    rw [hnil, List.append_nil] at hts
    rw [hts]
    exact hmt

theorem re_move_eq_core (pat tgt : String) (p : PurePath) (ast : RegexAst)
    (hpat : to_pattern pat = .ok ast) :
    re_move pat tgt p = re_move_core ast tgt (pathStr p) := by
  unfold re_move
  rw [hpat]

theorem re_move_eq_error (pat tgt : String) (p : PurePath) (e : String)
    (hpat : to_pattern pat = .error e) :
    re_move pat tgt p = .error e := by
  unfold re_move
  rw [hpat]

theorem re_move_core_none (ast : RegexAst) (tgt s : String)
    (hf : fullmatch ast s = none) : re_move_core ast tgt s = .ok none := by
  unfold re_move_core
  rw [hf]

theorem re_move_core_some (ast : RegexAst) (tgt s : String) (asg : Asg)
    (hf : fullmatch ast s = some asg) :
    re_move_core ast tgt s =
      (match formatTemplate (some s :: groupVals ast asg) tgt with
       | .error e => .error e
       | .ok out => .ok (some (to_path out))) := by
  unfold re_move_core
  rw [hf]

theorem rmatches_chr_inv {c : Char} {s : List Char} (h : RMatches (.chr c) s) :
    s = [c] := by
  cases h
  rfl

theorem rmatches_eps_inv {s : List Char} (h : RMatches .eps s) : s = [] := by
  cases h
  rfl

theorem rmatches_cat_inv {a b : RegexAst} {s : List Char} (h : RMatches (.cat a b) s) :
    ∃ xs ys, s = xs ++ ys ∧ RMatches a xs ∧ RMatches b ys := by
  cases h with
  | cat h1 h2 => exact ⟨_, _, rfl, h1, h2⟩

theorem not_rmatches_x_ab : ¬ RMatches (.cat (.chr 'x') .eps) ['a', 'b'] := by
  intro h
  obtain ⟨xs, ys, heq, h1, h2⟩ := rmatches_cat_inv h
  rw [rmatches_chr_inv h1, rmatches_eps_inv h2] at heq
  simp at heq

/-- C4: `re_move` is anchored — whenever it accepts a path (for a compilable
pattern) the compiled regex generates the path's entire string form, and
whenever the regex does not generate the entire string form the rule rejects
with `None` (so a mere substring match never counts); on a full match the rule
returns the path parsed from the template formatted with the group list whose
head `{0}` is the whole match and whose k-th entry `{k}` is the k-th capture
group in declaration order; the spec's concrete example holds, and a path a
suffix of which — but not all of which — matches is rejected. -/
theorem re_move_spec :
    (∀ (pat tgt : String) (p q : PurePath) (ast : RegexAst),
      to_pattern pat = .ok ast →
      re_move pat tgt p = .ok (some q) → RMatches ast (pathStr p).data) ∧
    (∀ (pat tgt : String) (p : PurePath) (ast : RegexAst),
      to_pattern pat = .ok ast →
      ¬ RMatches ast (pathStr p).data → re_move pat tgt p = .ok none) ∧
    (∀ (pat tgt : String) (p : PurePath) (ast : RegexAst) (asg : Asg) (out : String),
      to_pattern pat = .ok ast →
      fullmatch ast (pathStr p) = some asg →
      formatTemplate (some (pathStr p) :: groupVals ast asg) tgt = .ok out →
      re_move pat tgt p = .ok (some (to_path out))) ∧
    re_move "(\\d+)_(.*)" "{2}/{1}" (to_path "42_report.pdf") =
      .ok (some (to_path "report.pdf/42")) ∧
    re_move "\\d+" "{0}" (to_path "a42") = .ok none ∧
    pathStr (to_path "42_report.pdf") = "42_report.pdf" := by
  refine ⟨?_, ?_, ?_, by decide, by decide, rfl⟩
  · intro pat tgt p q ast hpat h
    rw [re_move_eq_core pat tgt p ast hpat] at h
    cases hf : fullmatch ast (pathStr p) with
    | none =>
      rw [re_move_core_none ast tgt (pathStr p) hf] at h
      simp at h
    | some asg => exact fullmatch_sound hf
  · intro pat tgt p ast hpat hnm
    rw [re_move_eq_core pat tgt p ast hpat]
    cases hf : fullmatch ast (pathStr p) with
    | none => exact re_move_core_none ast tgt (pathStr p) hf
    | some asg => exact absurd (fullmatch_sound hf) hnm
  · intro pat tgt p ast asg out hpat hf hout
    rw [re_move_eq_core pat tgt p ast hpat, re_move_core_some ast tgt (pathStr p) asg hf,
      hout]

/-- Witness for C4: the compiled example pattern matches the whole string form
of the accepted path; the semantic-rejection conjunct fires on a concrete
non-matching path; the template conjunct reproduces the example output. -/
theorem re_move_spec_witness :
    (∃ ast, to_pattern "(\\d+)_(.*)" = .ok ast ∧
      RMatches ast (pathStr (to_path "42_report.pdf")).data) ∧
    re_move "x" "{0}" (to_path "ab") = .ok none ∧
    re_move "(\\d+)_(.*)" "{2}/{1}" (to_path "42_report.pdf") =
      .ok (some (to_path "report.pdf/42")) :=
  ⟨⟨_, rfl, re_move_spec.1 "(\\d+)_(.*)" "{2}/{1}" (to_path "42_report.pdf")
      (to_path "report.pdf/42") _ rfl (by decide)⟩,
    re_move_spec.2.1 "x" "{0}" (to_path "ab") (.cat (.chr 'x') .eps) (by decide)
      not_rmatches_x_ab,
    re_move_spec.2.2.1 "(\\d+)_(.*)" "{2}/{1}" (to_path "42_report.pdf") _ _
      "report.pdf/42" rfl rfl rfl⟩

theorem substItems_ok (gs : List (Option String)) (items : List TItem)
    (h : items.all (fun it =>
      match it with
      | TItem.ph k => decide (k < gs.length)
      | TItem.lit _ => true) = true) :
    ∃ out, substItems gs items = .ok out := by
  induction items with
  | nil => exact ⟨[], rfl⟩
  | cons it rest ih =>
    rw [List.all_cons, Bool.and_eq_true] at h
    obtain ⟨out, hout⟩ := ih h.2
    cases it with
    | lit l => exact ⟨l ++ out, by simp [substItems, hout, Except.map]⟩
    | ph k =>
      have hk : k < gs.length := by simpa using h.1
      exact ⟨(renderGroup (gs.get ⟨k, hk⟩)).data ++ out, by simp [substItems, hk, hout, Except.map]⟩

theorem formatTemplate_ok (gs : List (Option String)) (t : String)
    (h : wellFormedTemplate t gs.length = true) :
    ∃ out, formatTemplate gs t = .ok out := by
  unfold wellFormedTemplate at h
  unfold formatTemplate
  cases hp : parseTemplate (t.data.length + 1) t.data with
  | error e =>
    rw [hp] at h
    simp at h
  | ok items =>
    rw [hp] at h
    obtain ⟨out, hout⟩ := substItems_ok gs items h
    exact ⟨String.mk out, by simp [Except.bind, hout, Except.map]⟩

/-- C5 corrected: applying `re_move` built from a malformed pattern reports
the pattern error at application time — the error value of every
application — while a well-formed pattern together with a template whose
placeholders are in range for the pattern's groups makes every application
return a plain result, with non-matching paths rejected as the data value
`None` rather than an error. (Rule construction itself is a total function
and never fails.) -/
theorem re_move_error_policy :
    (∀ (pat tgt : String) (p : PurePath) (e : String),
      to_pattern pat = .error e → re_move pat tgt p = .error e) ∧
    (∀ (pat tgt : String) (p : PurePath) (ast : RegexAst),
      to_pattern pat = .ok ast →
      wellFormedTemplate tgt (1 + countGroups ast) = true →
      ∃ r : Option PurePath, re_move pat tgt p = .ok r) ∧
    (∀ (pat tgt : String) (p : PurePath) (ast : RegexAst),
      to_pattern pat = .ok ast → fullmatch ast (pathStr p) = none →
      re_move pat tgt p = .ok none) := by
  refine ⟨?_, ?_, ?_⟩
  · intro pat tgt p e hpat
    exact re_move_eq_error pat tgt p e hpat
  · intro pat tgt p ast hpat hwf
    rw [re_move_eq_core pat tgt p ast hpat]
    cases hf : fullmatch ast (pathStr p) with
    | none => exact ⟨none, re_move_core_none ast tgt (pathStr p) hf⟩
    | some asg =>
      have hlen : (some (pathStr p) :: groupVals ast asg).length = 1 + countGroups ast := by
        simp [groupVals, Nat.add_comm]
      obtain ⟨out, hout⟩ := formatTemplate_ok (some (pathStr p) :: groupVals ast asg) tgt
        (by rw [hlen]; exact hwf)
      refine ⟨some (to_path out), ?_⟩
      rw [re_move_core_some ast tgt (pathStr p) asg hf, hout]
  · intro pat tgt p ast hpat hf
    rw [re_move_eq_core pat tgt p ast hpat]
    exact re_move_core_none ast tgt (pathStr p) hf

/-- Witness for C5's amended guarantee at a concrete well-formed rule. -/
theorem re_move_error_policy_witness :
    ∃ r : Option PurePath, re_move "(\\d+)_(.*)" "{2}/{1}" (to_path "q") = .ok r :=
  re_move_error_policy.2.1 "(\\d+)_(.*)" "{2}/{1}" (to_path "q") _ rfl (by decide)

/-- Counterexample to C5 as stated: the rule `re_move("(", "{0}")` is built
without any failure (construction is total), yet applying it to the path `a`
yields a raised error — the malformed pattern surfaces at application time,
not at construction time, because the source compiles the pattern inside the
applied closure. -/
theorem re_move_counterexample :
    re_move "(" "{0}" (to_path "a") = .error "re.error: invalid pattern" := by
  decide

end PFERD
